import Mathlib

/-!
Verification of the schedule-derived availability constraint generator
(`crew_availability_constraints.cpp`).

The C++ program parses a crew schedule, aggregates duty days per base and
per day, and apportions a slack-inflated target back across bases in one of
two modes (per-day shape-preserving, or monthly skewed average), using a
largest-remainder rounding step.  This file gives a shallow embedding of
those computations and proves (or refutes) the specified properties.

Modelling conventions:
* C++ `float`/`double` arithmetic is embedded as exact rational arithmetic
  over `ℚ` (the spec describes the algorithm over the reals);
* the C++ cast `(int) x` (truncation toward zero) is `cppIntCast`;
* strings are `List Char`; the C++ `stringstream >> int` read is
  `parseIntCpp` (C++11 semantics: a failed read stores 0);
* the process-wide random stream consumed by `rand()` is an explicit
  argument `rand : ℕ → ℕ` (call number to value).
-/

namespace CrewAvail

/-- The C++ cast `(int) q`: truncation toward zero. -/
def cppIntCast (q : ℚ) : ℤ := if 0 ≤ q then ⌊q⌋ else ⌈q⌉

/-- The fractional part used by both rounding loops:
`x - (int) x` in the source. -/
def frac (q : ℚ) : ℚ := q - cppIntCast q

/-! ## Schedule parser (lines 196-240 of the source)

One employee schedule is a sequence of task identifiers.  Each task is
classified: `VACATION` (exact), a `POST` prefix, or a `TDH` prefix produce
no duty event; a `PAL` prefix is stripped (4 characters) first; any other
task is an airleg whose day is read from the 2 characters at offset 4. -/

/-- Value of a digit list, most significant first. -/
def digitsToNat (cs : List Char) : ℕ :=
  cs.foldl (fun acc c => acc * 10 + (c.toNat - ('0').toNat)) 0

/-- The C++11 `stringstream >> intVar` read: skip spaces, optional minus
sign, then leading digits; a failed read stores 0. -/
def parseIntCpp (s : List Char) : ℤ :=
  let t := s.dropWhile (fun c => c = ' ')
  match t with
  | '-' :: rest =>
      if rest.takeWhile Char.isDigit = [] then 0
      else -(digitsToNat (rest.takeWhile Char.isDigit) : ℤ)
  | _ =>
      if t.takeWhile Char.isDigit = [] then 0
      else (digitsToNat (t.takeWhile Char.isDigit) : ℤ)

/-- Task classification (source lines 225-233): `none` means the task emits
no duty event; `some d` means the task is an airleg flown on day `d`. -/
def classifyTask (task : List Char) : Option ℤ :=
  if task = ("VACATION").toList then none
  else if task.take 4 = ("POST").toList then none
  else if task.take 3 = ("TDH").toList then none
  else
    let t := if task.take 3 = ("PAL").toList then task.drop 4 else task
    some (parseIntCpp ((t.drop 4).take 2))

/-- The per-employee duty fold (source lines 202-240): the running day
starts at 0 and a duty event is emitted exactly when the task day strictly
exceeds it, in which case the running day is updated. -/
def emitDutyDays : List (List Char) → ℤ → List ℤ
  | [], _ => []
  | t :: ts, day =>
    match classifyTask t with
    | none => emitDutyDays ts day
    | some d => if day < d then d :: emitDutyDays ts d else emitDutyDays ts day

/-- Synthetic schedule with airlegs on days 1,1,2,2,2,3. -/
def tasksMonotonic : List (List Char) :=
  [("LEG_01_00100_0").toList, ("LEG_01_00200_0").toList,
   ("LEG_02_00300_0").toList, ("LEG_02_00400_0").toList,
   ("LEG_02_00500_0").toList, ("LEG_03_00600_0").toList]

/-- Synthetic schedule with airlegs on days 1,3,2. -/
def tasksNonMonotonic : List (List Char) :=
  [("LEG_01_00100_0").toList, ("LEG_03_00200_0").toList,
   ("LEG_02_00300_0").toList]

/-! ## Mode A: per-day shape-preserving apportionment (source lines 248-341)

Mode A runs independently for each day `j`; the embedding below models the
computation of a single day.  `raw` is the column
`initialDutiesPerBasePerDay[*][j]` in base order, `slack` is
`percentSlack/100` (the slack fraction). -/

/-- Per-base scaled duty counts `raw * (1 + slack)` (source line 280). -/
def scaledDuties (slack : ℚ) (raw : List ℕ) : List ℚ :=
  raw.map fun (r : ℕ) => (r : ℚ) * (1 + slack)

/-- The real-valued day total `sumDutiesPerDay[j]` (source line 281). -/
def sumScaled (slack : ℚ) (raw : List ℕ) : ℚ := (scaledDuties slack raw).sum

/-- The day total of truncated values `sumRoundedDownDutiesPerDay[j]`
(source line 282). -/
def sumRoundedDown (slack : ℚ) (raw : List ℕ) : ℤ :=
  ((scaledDuties slack raw).map cppIntCast).sum

/-- The initial `numberRoundUp` of source line 290. -/
def numberRoundUpCore (slack : ℚ) (raw : List ℕ) : ℤ :=
  (cppIntCast (sumScaled slack raw) + 1) - sumRoundedDown slack raw

/-- The `addedOneCrew` test of source lines 297-303: some base already
gained a unit through scaling alone. -/
def addedOneCrew (slack : ℚ) (raw : List ℕ) : Bool :=
  (raw.zip (scaledDuties slack raw)).any fun p =>
    decide ((p.1 : ℤ) < cppIntCast p.2)

/-- The adjusted `numberRoundUp` (source lines 290-307): when the initial
count is 0 and no base gained a unit for free, one forced unit is added. -/
def numberRoundUp (slack : ℚ) (raw : List ℕ) : ℤ :=
  if numberRoundUpCore slack raw = 0 then
    (if addedOneCrew slack raw then 0 else 1)
  else numberRoundUpCore slack raw

/-- The highest-decimal scan of source lines 312-335: collects the indices
of the bases whose fractional part is currently highest (ties within an
absolute tolerance of 1/100000 are appended). -/
def scanTies : List ℚ → ℕ → List ℕ → ℚ → List ℕ × ℚ
  | [], _, idxs, hd => (idxs, hd)
  | v :: vs, k, idxs, hd =>
    if frac v > hd then scanTies vs (k + 1) [k] (frac v)
    else if frac v - hd < 1/100000 ∧ frac v - hd > -(1/100000) then
      scanTies vs (k + 1) (idxs ++ [k]) hd
    else scanTies vs (k + 1) idxs hd

/-- One rounding increment (source lines 311-339): pick one of the tied
highest-decimal bases using the next random draw `r` and replace its value
by its truncation plus one. -/
def roundUpOnce (values : List ℚ) (r : ℕ) : List ℚ :=
  let idxs := (scanTies values 0 [] 0).1
  let chosen := idxs.getD (r % idxs.length) 0
  values.set chosen ((cppIntCast (values.getD chosen 0) : ℚ) + 1)

/-- The increment loop: `n` rounding increments consuming random draws
`rand (n-1), ..., rand 0`. -/
def roundUpLoop (rand : ℕ → ℕ) : ℕ → List ℚ → List ℚ
  | 0, values => values
  | n + 1, values => roundUpLoop rand n (roundUpOnce values (rand n))

/-- The final Mode A allocation row for one day: run the increment loop and
truncate every entry, as the writer does at source line 411. -/
def allocationDay (slack : ℚ) (raw : List ℕ) (rand : ℕ → ℕ) : List ℤ :=
  (roundUpLoop rand (numberRoundUp slack raw).toNat
    (scaledDuties slack raw)).map cppIntCast

/-- A fixed stream of random draws, used for concrete evaluations. -/
def zeroRand : ℕ → ℕ := fun _ => 0

/-- The target total exactly as claim C1 words it: the floor of the sum of
the scaled values plus one, except that the plus one is dropped when at
least one base has a floor after scaling that already exceeds its raw
count.  Stated from the claim text, for comparison against the code. -/
def claimC1Target (slack : ℚ) (raw : List ℕ) : ℤ :=
  if (raw.zip (scaledDuties slack raw)).any (fun p => decide ((p.1 : ℤ) < ⌊p.2⌋))
  then ⌊sumScaled slack raw⌋
  else ⌊sumScaled slack raw⌋ + 1

/-! ## Mode B: monthly skewed average (source lines 419-555)

`duties` is the matrix `initialDutiesPerBasePerDay` (one inner list per
base), `numDays` the period length, `slack` the slack fraction
`percentSlack/100`, and `pct` the parameter `percentMainBase` (on the
0-100 scale). -/

/-- Per-base period totals (source lines 436-439). -/
def periodTotals (duties : List (List ℕ)) : List ℕ := duties.map List.sum

/-- The main-base selection scan of source lines 433-443: starting from
index -1 and availability 0, a base replaces the incumbent only when its
total is strictly greater. -/
def mainBaseScan : List ℕ → ℕ → ℤ → ℕ → ℤ
  | [], _, idx, _ => idx
  | s :: rest, k, idx, avail =>
    if avail < s then mainBaseScan rest (k + 1) (k : ℤ) s
    else mainBaseScan rest (k + 1) idx avail

/-- The index of the main base, or -1 when no base has a positive total. -/
def mainBaseIndex (duties : List (List ℕ)) : ℤ :=
  mainBaseScan (periodTotals duties) 0 (-1) 0

/-- Scaled per-base period averages (source line 445). -/
def rawAverages (duties : List (List ℕ)) (numDays : ℕ) (slack : ℚ) :
    List ℚ :=
  (periodTotals duties).map fun (s : ℕ) => (s : ℚ) / (numDays : ℚ) * (1 + slack)

/-- The sum `sumAverages` of source line 446. -/
def sumAverages (duties : List (List ℕ)) (numDays : ℕ) (slack : ℚ) : ℚ :=
  (rawAverages duties numDays slack).sum

/-- The redistribution of source lines 451-458: the main base receives
`S * pct / 100`, every other base the equal split
`S * (1 - pct/100) / (numBases - 1)`. -/
def skewedAverages (duties : List (List ℕ)) (numDays : ℕ) (slack pct : ℚ) :
    List ℚ :=
  (List.range (periodTotals duties).length).map fun (i : ℕ) =>
    if (i : ℤ) = mainBaseIndex duties then
      sumAverages duties numDays slack * pct / 100
    else
      sumAverages duties numDays slack * (1 - pct / 100) /
        (((periodTotals duties).length : ℚ) - 1)

/-- The rounded-up sum of the averages (source line 462):
`(int)(sumAverages + 1)`. -/
def roundedSumAverages (duties : List (List ℕ)) (numDays : ℕ) (slack : ℚ) :
    ℤ :=
  cppIntCast (sumAverages duties numDays slack + 1)

/-- The count of averages to round up (source lines 471-474). -/
def numberRoundedUp (duties : List (List ℕ)) (numDays : ℕ) (slack pct : ℚ) :
    ℤ :=
  roundedSumAverages duties numDays slack -
    ((skewedAverages duties numDays slack pct).map cppIntCast).sum

/-- The deterministic highest-decimal scan of source lines 478-487: the
index and decimal are overwritten whenever the current fractional part is
greater than or equal to the best one seen so far. -/
def argmaxGE : List ℚ → ℕ → ℕ → ℚ → ℕ
  | [], _, index, _ => index
  | v :: vs, j, index, dec =>
    if frac v ≥ dec then argmaxGE vs (j + 1) j (frac v)
    else argmaxGE vs (j + 1) index dec

/-- One Mode B rounding increment (source lines 477-491). -/
def roundUpOnceB (values : List ℚ) : List ℚ :=
  let idx := argmaxGE values 0 0 0
  values.set idx ((cppIntCast (values.getD idx 0) : ℚ) + 1)

/-- The Mode B increment loop. -/
def roundUpLoopB : ℕ → List ℚ → List ℚ
  | 0, values => values
  | n + 1, values => roundUpLoopB n (roundUpOnceB values)

/-- Companion recursion used to reason about `argmaxGE`: returns the
position (relative to the remaining list) selected by the scan, or `none`
when no remaining fractional part reaches the running best. -/
def lastMaxAux : List ℚ → ℚ → Option ℕ
  | [], _ => none
  | v :: vs, dec =>
    match lastMaxAux vs (max dec (frac v)) with
    | some p => some (p + 1)
    | none => if frac v ≥ dec then some 0 else none

/-- The tie-break index as claim C2 words it: the first base in base order
among those attaining the maximum fractional remainder.  Stated from the
claim text, for comparison against the code. -/
def firstMaxIndex (values : List ℚ) : ℕ :=
  (values.map frac).findIdx fun d =>
    decide (((values.map frac).foldl max 0) ≤ d)

/-- The final per-base Mode B allocation (after the round-down of source
lines 493-497). -/
def modeBAllocation (duties : List (List ℕ)) (numDays : ℕ) (slack pct : ℚ) :
    List ℤ :=
  (roundUpLoopB (numberRoundedUp duties numDays slack pct).toNat
    (skewedAverages duties numDays slack pct)).map cppIntCast

/-- The rendered Mode B table (source lines 537-550): one row per day, each
row holding the same per-base allocation vector. -/
def modeBTable (duties : List (List ℕ)) (numDays : ℕ) (slack pct : ℚ) :
    List (List ℤ) :=
  (List.range numDays).map fun _ => modeBAllocation duties numDays slack pct

/-! ## The per-instance batch loop (source lines 82-561)

Each loop iteration looks at the current instance: when its base registry
`listOfBases.csv` is missing, an error line is printed and - because the
increment of `instanceNb` sits inside the else branch - the counter is not
advanced; otherwise the instance is processed and the counter advances.
`regs` records, per instance, whether the registry file is present; `fuel`
bounds the number of iterations observed. -/

/-- One observable event of the batch loop. -/
inductive BatchEvent where
  | errorMissingRegistry : ℕ → BatchEvent
  | processed : ℕ → BatchEvent
deriving DecidableEq

/-- The batch loop, observed for `fuel` iterations starting at instance
counter `k`. -/
def runBatch (regs : List Bool) : ℕ → ℕ → List BatchEvent
  | 0, _ => []
  | fuel + 1, k =>
    if k < regs.length then
      if regs.getD k false then
        BatchEvent.processed k :: runBatch regs fuel (k + 1)
      else
        BatchEvent.errorMissingRegistry k :: runBatch regs fuel k
    else []

/-! ## Theorems -/

theorem cppIntCast_of_nonneg {q : ℚ} (h : 0 ≤ q) : cppIntCast q = ⌊q⌋ := by
  simp [cppIntCast, h]

theorem frac_nonneg {q : ℚ} (h : 0 ≤ q) : 0 ≤ frac q := by
  rw [frac, cppIntCast_of_nonneg h]
  have := Int.floor_le q
  linarith

theorem frac_lt_one {q : ℚ} (h : 0 ≤ q) : frac q < 1 := by
  rw [frac, cppIntCast_of_nonneg h]
  have := Int.lt_floor_add_one q
  push_cast at this ⊢
  linarith

theorem getD_set_self {α : Type} (l : List α) (i : ℕ) (a d : α)
    (h : i < l.length) : (l.set i a).getD i d = a := by
  induction l generalizing i with
  | nil => simp at h
  | cons x xs ih =>
    cases i with
    | zero => rfl
    | succ n => exact ih n (by simpa using h)

theorem getD_set_ne {α : Type} (l : List α) (i j : ℕ) (a d : α)
    (h : i ≠ j) : (l.set i a).getD j d = l.getD j d := by
  induction l generalizing i j with
  | nil => simp [List.set]
  | cons x xs ih =>
    cases i with
    | zero =>
      cases j with
      | zero => exact absurd rfl h
      | succ m => rfl
    | succ n =>
      cases j with
      | zero => rfl
      | succ m => exact ih n m (fun hnm => h (by rw [hnm]))

theorem sum_set_int (l : List ℤ) (i : ℕ) (a : ℤ) (h : i < l.length) :
    (l.set i a).sum = l.sum - l.getD i 0 + a := by
  induction l generalizing i with
  | nil => simp at h
  | cons x xs ih =>
    cases i with
    | zero => simp [List.set]; ring
    | succ n =>
      have := ih n (by simpa using h)
      simp only [List.set, List.sum_cons, List.getD_cons_succ, this]
      ring

/-- C3: a duty event is emitted exactly when the task day strictly exceeds
the running maximum day (which is then updated); ignored tasks leave the
state unchanged; consequently the day sequence 1,1,2,2,2,3 yields exactly
the three events 1,2,3 and the non-monotonic sequence 1,3,2 yields events
for days 1 and 3 only, with no error raised. -/
theorem parser_monotonic_days_C3 :
    (∀ t ts day d, classifyTask t = some d →
      emitDutyDays (t :: ts) day =
        if day < d then d :: emitDutyDays ts d else emitDutyDays ts day) ∧
    (∀ t ts day, classifyTask t = none →
      emitDutyDays (t :: ts) day = emitDutyDays ts day) ∧
    emitDutyDays tasksMonotonic 0 = [1, 2, 3] ∧
    emitDutyDays tasksNonMonotonic 0 = [1, 3] := by
  refine ⟨?_, ?_, by decide, by decide⟩
  · intro t ts day d h
    simp [emitDutyDays, h]
  · intro t ts day h
    simp [emitDutyDays, h]

/-- Witness for C3 at a concrete input: a lone airleg on day 5 processed
from the initial state emits the single event 5. -/
theorem parser_monotonic_days_C3_witness :
    emitDutyDays [("LEG_05_00700_0").toList] 0 = [5] := by
  have h := parser_monotonic_days_C3.1 (("LEG_05_00700_0").toList) [] 0 5 (by decide)
  rw [h]
  decide

/-- C7: tasks `TDH_X`, `VACATION`, `POST_Y` never produce a duty event, and
a task with the 4-character prefix `PAL_` is stripped of that prefix and
treated as a normal airleg whose day code is read from the two characters
at offsets 4-5 of the stripped identifier. -/
theorem task_classification_C7 :
    classifyTask (("TDH_X").toList) = none ∧
    classifyTask (("VACATION").toList) = none ∧
    classifyTask (("POST_Y").toList) = none ∧
    ∀ rest : List Char,
      classifyTask ('P' :: 'A' :: 'L' :: '_' :: rest) =
        some (parseIntCpp ((rest.drop 4).take 2)) := by
  refine ⟨by decide, by decide, by decide, ?_⟩
  intro rest
  simp [classifyTask, List.take]

/-- Witness for C7: the flagged airleg `PAL_LEG_07_00960_0` is counted as a
duty on day 7. -/
theorem task_classification_C7_witness :
    classifyTask (("PAL_LEG_07_00960_0").toList) = some 7 := by
  have h := task_classification_C7.2.2.2 (("LEG_07_00960_0").toList)
  simpa using h

/-! ### Mode A lemmas -/

theorem cppIntCast_intCast (z : ℤ) : cppIntCast (z : ℚ) = z := by
  rw [cppIntCast]
  split
  · exact Int.floor_intCast z
  · exact Int.ceil_intCast z

theorem getD_nonneg {values : List ℚ} (hnn : ∀ v ∈ values, 0 ≤ v) (i : ℕ) :
    0 ≤ values.getD i 0 := by
  by_cases h : i < values.length
  · rw [List.getD_eq_getElem _ _ h]
    exact hnn _ (List.getElem_mem h)
  · rw [List.getD_eq_default _ _ (le_of_not_lt h)]

theorem scaledDuties_nonneg {slack : ℚ} (hs : 0 ≤ slack) (raw : List ℕ) :
    ∀ v ∈ scaledDuties slack raw, 0 ≤ v := by
  intro v hv
  rw [scaledDuties, List.mem_map] at hv
  obtain ⟨r, _, rfl⟩ := hv
  have h1 : (0 : ℚ) ≤ 1 + slack := by linarith
  exact mul_nonneg (Nat.cast_nonneg r) h1

theorem sumScaled_nonneg {slack : ℚ} (hs : 0 ≤ slack) (raw : List ℕ) :
    0 ≤ sumScaled slack raw :=
  List.sum_nonneg (scaledDuties_nonneg hs raw)

theorem sum_map_floor_cast_le (l : List ℚ) :
    (((l.map fun v => ⌊v⌋).sum : ℤ) : ℚ) ≤ l.sum := by
  induction l with
  | nil => simp
  | cons x xs ih =>
    simp only [List.map_cons, List.sum_cons]
    push_cast
    have := Int.floor_le x
    push_cast at ih
    linarith

theorem sum_floor_le_floor_sum (l : List ℚ) :
    (l.map fun v => ⌊v⌋).sum ≤ ⌊l.sum⌋ :=
  Int.le_floor.mpr (sum_map_floor_cast_le l)

theorem sumRoundedDown_eq_floor {slack : ℚ} (hs : 0 ≤ slack) (raw : List ℕ) :
    sumRoundedDown slack raw =
      ((scaledDuties slack raw).map fun v => ⌊v⌋).sum := by
  rw [sumRoundedDown]
  congr 1
  exact List.map_congr_left fun v hv =>
    cppIntCast_of_nonneg (scaledDuties_nonneg hs raw v hv)

theorem numberRoundUpCore_pos {slack : ℚ} (hs : 0 ≤ slack) (raw : List ℕ) :
    1 ≤ numberRoundUpCore slack raw := by
  have h : ((scaledDuties slack raw).map fun v => ⌊v⌋).sum ≤
      ⌊sumScaled slack raw⌋ := by
    rw [sumScaled]
    exact sum_floor_le_floor_sum (scaledDuties slack raw)
  rw [numberRoundUpCore, sumRoundedDown_eq_floor hs,
    cppIntCast_of_nonneg (sumScaled_nonneg hs raw)]
  omega

theorem numberRoundUp_eq {slack : ℚ} (hs : 0 ≤ slack) (raw : List ℕ) :
    numberRoundUp slack raw =
      ⌊sumScaled slack raw⌋ + 1 -
        ((scaledDuties slack raw).map fun v => ⌊v⌋).sum := by
  have h := numberRoundUpCore_pos hs raw
  rw [numberRoundUp, if_neg (by omega), numberRoundUpCore,
    sumRoundedDown_eq_floor hs, cppIntCast_of_nonneg (sumScaled_nonneg hs raw)]

theorem numberRoundUp_pos {slack : ℚ} (hs : 0 ≤ slack) (raw : List ℕ) :
    1 ≤ numberRoundUp slack raw := by
  have h := numberRoundUpCore_pos hs raw
  rw [numberRoundUp]
  split
  · omega
  · exact h

theorem scanTies_bounds (vs : List ℚ) :
    ∀ (k : ℕ) (idxs : List ℕ) (hd : ℚ),
      (∀ i ∈ idxs, i < k) →
      (∀ i ∈ (scanTies vs k idxs hd).1, i < k + vs.length) ∧
      ((scanTies vs k idxs hd).1 = [] → idxs = []) := by
  induction vs with
  | nil =>
    intro k idxs hd hinv
    rw [scanTies]
    exact ⟨fun i hi => lt_of_lt_of_le (hinv i hi) (by omega), fun h => h⟩
  | cons v vs ih =>
    intro k idxs hd hinv
    rw [scanTies]
    split_ifs with h1 h2
    · have := ih (k + 1) [k] (frac v) (by simp)
      refine ⟨fun i hi => ?_, fun h => absurd (this.2 h) (by simp)⟩
      have := this.1 i hi
      simp only [List.length_cons]
      omega
    · have hinv2 : ∀ i ∈ idxs ++ [k], i < k + 1 := by
        intro i hi
        rcases List.mem_append.mp hi with h | h
        · exact lt_of_lt_of_le (hinv i h) (by omega)
        · simp at h
          omega
      have := ih (k + 1) (idxs ++ [k]) hd hinv2
      refine ⟨fun i hi => ?_, fun h => absurd (this.2 h) (by simp)⟩
      have := this.1 i hi
      simp only [List.length_cons]
      omega
    · have := ih (k + 1) idxs hd
        (fun i hi => lt_of_lt_of_le (hinv i hi) (by omega))
      refine ⟨fun i hi => ?_, this.2⟩
      have := this.1 i hi
      simp only [List.length_cons]
      omega

theorem scanTies_start (v : ℚ) (vs : List ℚ) (hv : 0 ≤ v) :
    (scanTies (v :: vs) 0 [] 0).1 ≠ [] ∧
    ∀ i ∈ (scanTies (v :: vs) 0 [] 0).1, i < (v :: vs).length := by
  have hf := frac_nonneg hv
  rw [scanTies]
  by_cases h1 : frac v > 0
  · rw [if_pos h1]
    have h := scanTies_bounds vs 1 [0] (frac v) (by simp)
    refine ⟨fun he => absurd (h.2 he) (by simp), fun i hi => ?_⟩
    have := h.1 i hi
    simp only [List.length_cons]
    omega
  · have hfz : frac v = 0 := le_antisymm (not_lt.mp h1) hf
    rw [if_neg h1, if_pos (by rw [hfz]; norm_num)]
    have h := scanTies_bounds vs 1 ([] ++ [0]) 0 (by simp)
    refine ⟨fun he => absurd (h.2 he) (by simp), fun i hi => ?_⟩
    have := h.1 i hi
    simp only [List.length_cons]
    omega

theorem roundUpOnce_chosen_lt {values : List ℚ} (hne : values ≠ [])
    (hnn : ∀ v ∈ values, 0 ≤ v) (r : ℕ) :
    (scanTies values 0 [] 0).1.getD
      (r % (scanTies values 0 [] 0).1.length) 0 < values.length := by
  obtain ⟨v, vs, rfl⟩ := List.exists_cons_of_ne_nil hne
  have h := scanTies_start v vs (hnn v (by simp))
  have hlen : 0 < (scanTies (v :: vs) 0 [] 0).1.length :=
    List.length_pos.mpr h.1
  have hmod : r % (scanTies (v :: vs) 0 [] 0).1.length <
      (scanTies (v :: vs) 0 [] 0).1.length := Nat.mod_lt _ hlen
  have hmem : (scanTies (v :: vs) 0 [] 0).1.getD
      (r % (scanTies (v :: vs) 0 [] 0).1.length) 0 ∈
      (scanTies (v :: vs) 0 [] 0).1 := by
    rw [List.getD_eq_getElem _ _ hmod]
    exact List.getElem_mem hmod
  exact h.2 _ hmem

theorem roundUpOnce_length (values : List ℚ) (r : ℕ) :
    (roundUpOnce values r).length = values.length := by
  rw [roundUpOnce]
  exact List.length_set values _ _

theorem roundUpOnce_nonneg {values : List ℚ} (hnn : ∀ v ∈ values, 0 ≤ v)
    (r : ℕ) : ∀ v ∈ roundUpOnce values r, 0 ≤ v := by
  intro w hw
  rw [roundUpOnce] at hw
  rcases List.mem_or_eq_of_mem_set hw with h | h
  · exact hnn w h
  · rw [h]
    have h0 : (0 : ℤ) ≤ cppIntCast (values.getD
        ((scanTies values 0 [] 0).1.getD
          (r % (scanTies values 0 [] 0).1.length) 0) 0) := by
      rw [cppIntCast_of_nonneg (getD_nonneg hnn _)]
      exact Int.floor_nonneg.mpr (getD_nonneg hnn _)
    have h1 : (0 : ℚ) ≤ (cppIntCast (values.getD
        ((scanTies values 0 [] 0).1.getD
          (r % (scanTies values 0 [] 0).1.length) 0) 0) : ℚ) := by
      exact_mod_cast h0
    linarith

theorem cppIntCast_succ_of_nonneg {q : ℚ} (h : 0 ≤ q) :
    cppIntCast ((cppIntCast q : ℚ) + 1) = cppIntCast q + 1 := by
  rw [show ((cppIntCast q : ℚ) + 1) = ((cppIntCast q + 1 : ℤ) : ℚ) by push_cast; ring]
  exact cppIntCast_intCast _

theorem roundUpOnce_sumCast {values : List ℚ} (hne : values ≠ [])
    (hnn : ∀ v ∈ values, 0 ≤ v) (r : ℕ) :
    ((roundUpOnce values r).map cppIntCast).sum =
      (values.map cppIntCast).sum + 1 := by
  have hch := roundUpOnce_chosen_lt hne hnn r
  rw [roundUpOnce]
  rw [List.map_set]
  rw [sum_set_int _ _ _ (by simpa using hch)]
  have hget : (values.map cppIntCast).getD
      ((scanTies values 0 [] 0).1.getD
        (r % (scanTies values 0 [] 0).1.length) 0) 0 =
      cppIntCast (values.getD
        ((scanTies values 0 [] 0).1.getD
          (r % (scanTies values 0 [] 0).1.length) 0) 0) := by
    rw [List.getD_eq_getElem _ _ (by simpa using hch), List.getElem_map,
      List.getD_eq_getElem _ _ hch]
  rw [hget, cppIntCast_succ_of_nonneg (getD_nonneg hnn _)]
  ring

theorem roundUpOnce_pointwise {values : List ℚ} (hnn : ∀ v ∈ values, 0 ≤ v)
    (r i : ℕ) :
    cppIntCast (values.getD i 0) ≤
      cppIntCast ((roundUpOnce values r).getD i 0) := by
  rw [roundUpOnce]
  by_cases hic : (scanTies values 0 [] 0).1.getD
      (r % (scanTies values 0 [] 0).1.length) 0 = i
  · rw [hic]
    by_cases hlt : i < values.length
    · rw [getD_set_self _ _ _ _ hlt, cppIntCast_succ_of_nonneg (getD_nonneg hnn i)]
      omega
    · rw [List.set_eq_of_length_le (le_of_not_lt hlt)]
  · rw [getD_set_ne _ _ _ _ _ hic]

theorem roundUpLoop_props (rand : ℕ → ℕ) :
    ∀ (n : ℕ) (values : List ℚ), values ≠ [] → (∀ v ∈ values, 0 ≤ v) →
      (roundUpLoop rand n values).length = values.length ∧
      (∀ v ∈ roundUpLoop rand n values, 0 ≤ v) ∧
      ((roundUpLoop rand n values).map cppIntCast).sum
        = (values.map cppIntCast).sum + n ∧
      (∀ i, cppIntCast (values.getD i 0)
        ≤ cppIntCast ((roundUpLoop rand n values).getD i 0)) := by
  intro n
  induction n with
  | zero =>
    intro values hne hnn
    refine ⟨rfl, hnn, by simp [roundUpLoop], fun i => le_refl _⟩
  | succ m ih =>
    intro values hne hnn
    rw [roundUpLoop]
    have hne2 : roundUpOnce values (rand m) ≠ [] := by
      intro h
      have := roundUpOnce_length values (rand m)
      rw [h] at this
      exact hne (List.length_eq_zero.mp this.symm)
    have hnn2 := roundUpOnce_nonneg hnn (rand m)
    obtain ⟨hl, hn, hsum, hp⟩ := ih (roundUpOnce values (rand m)) hne2 hnn2
    refine ⟨by rw [hl, roundUpOnce_length], hn, ?_, ?_⟩
    · rw [hsum, roundUpOnce_sumCast hne hnn]
      push_cast
      ring
    · intro i
      exact le_trans (roundUpOnce_pointwise hnn (rand m) i) (hp i)

theorem allocationDay_sum {slack : ℚ} {raw : List ℕ} (hs : 0 ≤ slack)
    (hne : raw ≠ []) (rand : ℕ → ℕ) :
    (allocationDay slack raw rand).sum = ⌊sumScaled slack raw⌋ + 1 := by
  have hne2 : scaledDuties slack raw ≠ [] := by
    rw [scaledDuties]
    exact fun h => hne (List.map_eq_nil_iff.mp h)
  have hnn := scaledDuties_nonneg hs raw
  obtain ⟨hl, hn, hsum, hp⟩ :=
    roundUpLoop_props rand (numberRoundUp slack raw).toNat _ hne2 hnn
  rw [allocationDay, hsum]
  have hpos := numberRoundUp_pos hs raw
  rw [Int.toNat_of_nonneg (by omega)]
  have heq : ((scaledDuties slack raw).map cppIntCast).sum =
      ((scaledDuties slack raw).map fun v => ⌊v⌋).sum :=
    sumRoundedDown_eq_floor hs raw
  rw [heq, numberRoundUp_eq hs raw]
  ring

/-- C1 (amended): for every day, every slack fraction at least 0 and every
non-empty base list, the Mode A allocated integers for the day sum to
`floor (sum of scaled values) + 1`.  In exact arithmetic the sum of the
truncated values never exceeds the floor of the sum, so the source branch
that could drop the forced extra unit (lines 293-307) is unreachable and
the exception stated in the original claim never applies. -/
theorem modeA_daily_total_C1 (raw : List ℕ) (slack : ℚ) (rand : ℕ → ℕ)
    (hne : raw ≠ []) (hs : 0 ≤ slack) :
    (allocationDay slack raw rand).sum = ⌊sumScaled slack raw⌋ + 1 :=
  allocationDay_sum hs hne rand

/-- Witness for C1 at the concrete scenario of the spec: two bases with raw
counts 8 and 2 and slack 1/10. -/
theorem modeA_daily_total_C1_witness :
    (allocationDay (1/10) [8, 2] zeroRand).sum =
      ⌊sumScaled (1/10) [8, 2]⌋ + 1 :=
  modeA_daily_total_C1 [8, 2] (1/10) zeroRand (by decide) (by norm_num)

/-- Counterexample to C1 as stated: with a single base of raw count 2 and
slack fraction 3/5, the scaled value is 16/5, whose floor 3 exceeds the raw
count 2, so the claim predicts the target `floor (16/5) = 3`; but the code
allocates a total of 4 (the forced extra unit is still added). -/
theorem modeA_daily_total_C1_counterexample :
    (allocationDay (3/5) [2] zeroRand).sum = 4 ∧
    claimC1Target (3/5) [2] = 3 := by
  constructor
  · norm_num [allocationDay, numberRoundUp, numberRoundUpCore, sumRoundedDown,
      sumScaled, scaledDuties, cppIntCast, roundUpLoop, roundUpOnce, scanTies,
      frac, addedOneCrew, zeroRand]
  · norm_num [claimC1Target, sumScaled, scaledDuties]

/-- C4: for every day, slack fraction at least 0 and non-empty base list,
the allocated total is at least the raw duty total; in fact it is strictly
greater, so equality never occurs (in particular it occurs at most in the
degenerate zero-slack, zero-forced-increase situation named by the
claim). -/
theorem allocation_ge_duties_C4 (raw : List ℕ) (slack : ℚ) (rand : ℕ → ℕ)
    (hne : raw ≠ []) (hs : 0 ≤ slack) :
    (raw.sum : ℤ) ≤ (allocationDay slack raw rand).sum ∧
    ((allocationDay slack raw rand).sum = (raw.sum : ℤ) →
      slack = 0 ∧ numberRoundUp slack raw = 0) := by
  have hsum := allocationDay_sum hs hne rand
  have hfloor : (raw.sum : ℤ) ≤ ⌊sumScaled slack raw⌋ := by
    rw [Int.le_floor, sumScaled, scaledDuties]
    have h1 : (((raw.sum : ℤ)) : ℚ) = (raw.map (fun (r : ℕ) => (r : ℚ))).sum := by
      rw [Int.cast_natCast, Nat.cast_list_sum]
    rw [h1]
    refine List.sum_le_sum fun r _ => ?_
    have h2 : (0 : ℚ) ≤ (r : ℚ) * slack := mul_nonneg (Nat.cast_nonneg r) hs
    nlinarith
  refine ⟨by omega, fun h => absurd h (by omega)⟩

/-- C5: for every day, base index, slack fraction at least 0 and random
stream, the final Mode A allocation of a base is never below the floor of
its raw count scaled by `1 + slack`: rounding only ever increments the
truncated values. -/
theorem modeA_floor_invariant_C5 (raw : List ℕ) (slack : ℚ) (rand : ℕ → ℕ)
    (i : ℕ) (hs : 0 ≤ slack) (hi : i < raw.length) :
    ⌊(raw.getD i 0 : ℚ) * (1 + slack)⌋ ≤
      (allocationDay slack raw rand).getD i 0 := by
  have hne : raw ≠ [] := by
    intro h
    rw [h] at hi
    simp at hi
  have hne2 : scaledDuties slack raw ≠ [] := by
    rw [scaledDuties]
    exact fun h => hne (List.map_eq_nil_iff.mp h)
  have hnn := scaledDuties_nonneg hs raw
  obtain ⟨hl, hn, hsum, hp⟩ :=
    roundUpLoop_props rand (numberRoundUp slack raw).toNat _ hne2 hnn
  have hlen : i < (scaledDuties slack raw).length := by
    simpa [scaledDuties] using hi
  have hlenF : i < (roundUpLoop rand (numberRoundUp slack raw).toNat
      (scaledDuties slack raw)).length := by
    rw [hl]
    exact hlen
  have hgetA : (allocationDay slack raw rand).getD i 0 =
      cppIntCast ((roundUpLoop rand (numberRoundUp slack raw).toNat
        (scaledDuties slack raw)).getD i 0) := by
    rw [allocationDay, List.getD_eq_getElem _ _ (by simpa using hlenF),
      List.getElem_map, List.getD_eq_getElem _ _ hlenF]
  have hgetS : (scaledDuties slack raw).getD i 0 =
      (raw.getD i 0 : ℚ) * (1 + slack) := by
    rw [List.getD_eq_getElem _ _ hlen, List.getD_eq_getElem _ _ hi]
    simp [scaledDuties]
  have hflo : cppIntCast ((scaledDuties slack raw).getD i 0) =
      ⌊(raw.getD i 0 : ℚ) * (1 + slack)⌋ := by
    rw [hgetS]
    exact cppIntCast_of_nonneg (by rw [← hgetS]; exact getD_nonneg hnn i)
  rw [hgetA, ← hflo]
  exact hp i

/-- Witness for C5: base 0 of the concrete scenario (raw counts 8 and 2,
slack 1/10) keeps at least `floor (8.8) = 8` crews. -/
theorem modeA_floor_invariant_C5_witness :
    ⌊((([8, 2] : List ℕ).getD 0 0 : ℕ) : ℚ) * (1 + 1/10)⌋ ≤
      (allocationDay (1/10) [8, 2] zeroRand).getD 0 0 :=
  modeA_floor_invariant_C5 [8, 2] (1/10) zeroRand 0 (by norm_num) (by decide)

/-- Witness for C4 at the concrete scenario: the allocated total for raw
counts 8 and 2 with slack 1/10 is at least 10. -/
theorem allocation_ge_duties_C4_witness :
    ((([8, 2] : List ℕ).sum : ℤ) ≤
      (allocationDay (1/10) [8, 2] zeroRand).sum) :=
  (allocation_ge_duties_C4 [8, 2] (1/10) zeroRand (by decide) (by norm_num)).1

/-! ### Mode B lemmas -/

theorem argmaxGE_eq_lastMaxAux (vs : List ℚ) :
    ∀ (j index : ℕ) (dec : ℚ),
      argmaxGE vs j index dec =
        match lastMaxAux vs dec with
        | some p => j + p
        | none => index := by
  induction vs with
  | nil => intro j index dec; rfl
  | cons v vs ih =>
    intro j index dec
    by_cases h : frac v ≥ dec
    · rw [argmaxGE, if_pos h, ih (j + 1) j (frac v), lastMaxAux,
        max_eq_right h]
      cases hl : lastMaxAux vs (frac v) with
      | none => simp [h]
      | some p =>
        show j + 1 + p = j + (p + 1)
        omega
    · rw [argmaxGE, if_neg h, ih (j + 1) index dec, lastMaxAux,
        max_eq_left (le_of_not_le h)]
      cases hl : lastMaxAux vs dec with
      | none => simp [h]
      | some p =>
        show j + 1 + p = j + (p + 1)
        omega

theorem lastMaxAux_none (l : List ℚ) :
    ∀ dec : ℚ, lastMaxAux l dec = none →
      ∀ i < l.length, frac (l.getD i 0) < dec := by
  induction l with
  | nil => intro dec _ i hi; simp at hi
  | cons v vs ih =>
    intro dec h i hi
    rw [lastMaxAux] at h
    cases hl : lastMaxAux vs (max dec (frac v)) with
    | some p => rw [hl] at h; simp at h
    | none =>
      rw [hl] at h
      by_cases hv : frac v ≥ dec
      · rw [if_pos hv] at h; simp at h
      · have hlt : frac v < dec := lt_of_not_ge hv
        cases i with
        | zero => simpa using hlt
        | succ n =>
          have hres := ih (max dec (frac v)) hl n (by simpa using hi)
          rw [max_eq_left (le_of_lt hlt)] at hres
          simpa using hres

theorem lastMaxAux_some (l : List ℚ) :
    ∀ (dec : ℚ) (p : ℕ), lastMaxAux l dec = some p →
      p < l.length ∧ dec ≤ frac (l.getD p 0) ∧
      (∀ i < l.length, frac (l.getD i 0) ≤ frac (l.getD p 0)) ∧
      (∀ i, p < i → i < l.length → frac (l.getD i 0) < frac (l.getD p 0)) := by
  induction l with
  | nil => intro dec p h; rw [lastMaxAux] at h; cases h
  | cons v vs ih =>
    intro dec p h
    rw [lastMaxAux] at h
    cases hl : lastMaxAux vs (max dec (frac v)) with
    | some q =>
      rw [hl] at h
      have hp : p = q + 1 := by
        injection h with h2
        omega
      subst hp
      obtain ⟨hq, hdec, hall, hafter⟩ := ih (max dec (frac v)) q hl
      refine ⟨by simpa using hq, ?_, ?_, ?_⟩
      · calc dec ≤ max dec (frac v) := le_max_left _ _
          _ ≤ frac (vs.getD q 0) := hdec
          _ = frac ((v :: vs).getD (q + 1) 0) := by rw [List.getD_cons_succ]
      · intro i hi
        cases i with
        | zero =>
          calc frac ((v :: vs).getD 0 0) = frac v := by rw [List.getD_cons_zero]
            _ ≤ max dec (frac v) := le_max_right _ _
            _ ≤ frac (vs.getD q 0) := hdec
            _ = frac ((v :: vs).getD (q + 1) 0) := by rw [List.getD_cons_succ]
        | succ n =>
          have := hall n (by simpa using hi)
          simpa using this
      · intro i hqi hi
        cases i with
        | zero => omega
        | succ n =>
          have := hafter n (by omega) (by simpa using hi)
          simpa using this
    | none =>
      rw [hl] at h
      by_cases hv : frac v ≥ dec
      · rw [if_pos hv] at h
        have hp : p = 0 := by
          injection h with h2
          omega
        subst hp
        have hnone := lastMaxAux_none vs (max dec (frac v)) hl
        rw [max_eq_right hv] at hnone
        refine ⟨by simp, by simpa using hv, ?_, ?_⟩
        · intro i hi
          cases i with
          | zero => exact le_refl _
          | succ n =>
            have := hnone n (by simpa using hi)
            simp only [List.getD_cons_succ, List.getD_cons_zero]
            exact le_of_lt this
        · intro i h0 hi
          cases i with
          | zero => omega
          | succ n =>
            have := hnone n (by simpa using hi)
            simpa using this
      · rw [if_neg hv] at h
        cases h

/-- C2 (amended): in the Mode B largest-remainder step, each increment is
applied to the base selected by the non-strict scan `argmaxGE`, and that
base is the LAST base in base order among those attaining the maximum
fractional remainder (every remainder is at most the selected one, and
every later base has a strictly smaller remainder); the choice is
deterministic, never random.  The repeated overwrite on the non-strict
comparison means ties resolve to the last tied base, not the first. -/
theorem modeB_tiebreak_C2 (values : List ℚ) (hne : values ≠ [])
    (hnn : ∀ v ∈ values, 0 ≤ v) :
    argmaxGE values 0 0 0 < values.length ∧
    (∀ j < values.length,
      frac (values.getD j 0) ≤ frac (values.getD (argmaxGE values 0 0 0) 0)) ∧
    (∀ j, argmaxGE values 0 0 0 < j → j < values.length →
      frac (values.getD j 0) < frac (values.getD (argmaxGE values 0 0 0) 0)) := by
  obtain ⟨v, vs, rfl⟩ := List.exists_cons_of_ne_nil hne
  have heq := argmaxGE_eq_lastMaxAux (v :: vs) 0 0 0
  cases hl : lastMaxAux (v :: vs) 0 with
  | none =>
    have hcontra := lastMaxAux_none (v :: vs) 0 hl 0 (by simp)
    have hv0 : 0 ≤ frac v := frac_nonneg (hnn v (by simp))
    simp only [List.getD_cons_zero] at hcontra
    linarith
  | some p =>
    rw [hl] at heq
    simp only [Nat.zero_add] at heq
    obtain ⟨hp, _, hall, hafter⟩ := lastMaxAux_some (v :: vs) 0 p hl
    rw [heq]
    exact ⟨hp, hall, hafter⟩

/-- Witness for C2: on the remainder-tied vector (1/2, 1/2) the scan
selects a valid index (its other conclusions identify it as the last tied
base, index 1). -/
theorem modeB_tiebreak_C2_witness :
    argmaxGE [(1 : ℚ)/2, 1/2] 0 0 0 < ([(1 : ℚ)/2, 1/2]).length :=
  (modeB_tiebreak_C2 [(1 : ℚ)/2, 1/2] (by simp) (by norm_num)).1

/-- Counterexample to C2 as stated: a three-base Mode B instance whose
skewed averages are (2, 1, 1) - all fractional remainders tied at 0.  The
claim predicts the first tied base (index 0) receives the increment, but
the scan of the code selects index 2, the last tied base. -/
theorem modeB_tiebreak_C2_counterexample :
    skewedAverages [[2], [1], [1]] 1 0 50 = [2, 1, 1] ∧
    argmaxGE (skewedAverages [[2], [1], [1]] 1 0 50) 0 0 0 = 2 ∧
    firstMaxIndex (skewedAverages [[2], [1], [1]] 1 0 50) = 0 := by
  have h : skewedAverages [[2], [1], [1]] 1 0 50 = [2, 1, 1] := by
    norm_num [skewedAverages, periodTotals, mainBaseIndex, mainBaseScan,
      rawAverages, sumAverages, List.range_succ]
  refine ⟨h, ?_, ?_⟩
  · rw [h]
    norm_num [argmaxGE, frac, cppIntCast]
  · rw [h]
    norm_num [firstMaxIndex, frac, cppIntCast, List.findIdx_cons]

/-- C6: the rendered Mode B table is flat across the period: for any two
day rows and any base column, the rendered values agree (one per-base
integer is replicated in every day row). -/
theorem modeB_flat_C6 (duties : List (List ℕ)) (numDays : ℕ)
    (slack pct : ℚ) (d1 d2 b : ℕ) (h1 : d1 < numDays) (h2 : d2 < numDays) :
    ((modeBTable duties numDays slack pct).getD d1 []).getD b 0 =
      ((modeBTable duties numDays slack pct).getD d2 []).getD b 0 := by
  have hrow : ∀ d, d < numDays →
      (modeBTable duties numDays slack pct).getD d [] =
        modeBAllocation duties numDays slack pct := by
    intro d hd
    rw [modeBTable, List.getD_eq_getElem _ _ (by simpa using hd),
      List.getElem_map]
  rw [hrow d1 h1, hrow d2 h2]

/-- Witness for C6: in a two-base, three-day Mode B run, the value of base
1 on day 1 equals its value on day 3. -/
theorem modeB_flat_C6_witness :
    ((modeBTable [[1], [2]] 3 0 50).getD 0 []).getD 1 0 =
      ((modeBTable [[1], [2]] 3 0 50).getD 2 []).getD 1 0 :=
  modeB_flat_C6 [[1], [2]] 3 0 50 0 2 1 (by norm_num) (by norm_num)

/-- C8 (behaviour at the failing input): a single-base instance under Mode
B is not rejected, logged or skipped - the engine runs to completion and
produces the allocation (3) for raw total 2, one day, slack 0 and main
base percentage 60.  No degenerate-configuration check exists in the
source (lines 419-555).  Moreover, for a single base with zero total no
main base is selected (index stays -1), so the base takes the other-bases
branch whose divisor `numBases - 1` is zero. -/
theorem modeB_single_base_C8 :
    modeBAllocation [[2]] 1 0 60 = [3] ∧
    mainBaseIndex [[0]] = -1 ∧
    ((periodTotals [[0]]).length : ℚ) - 1 = 0 := by
  refine ⟨?_, ?_, ?_⟩
  · norm_num [modeBAllocation, numberRoundedUp, roundedSumAverages,
      skewedAverages, periodTotals, mainBaseIndex, mainBaseScan, rawAverages,
      sumAverages, cppIntCast, roundUpLoopB, roundUpOnceB, argmaxGE, frac,
      List.range_succ]
  · norm_num [mainBaseIndex, mainBaseScan, periodTotals]
  · norm_num [periodTotals]

theorem mainBaseScan_zeros (l : List ℕ) (hz : ∀ s ∈ l, s = 0) :
    ∀ (k : ℕ) (idx : ℤ), mainBaseScan l k idx 0 = idx := by
  induction l with
  | nil => intro k idx; rfl
  | cons s rest ih =>
    intro k idx
    have hs : s = 0 := hz s (by simp)
    rw [mainBaseScan, hs, if_neg (lt_irrefl 0)]
    exact ih (fun x hx => hz x (by simp [hx])) (k + 1) idx

/-- C10: when every base has period total 0, the main-base scan keeps its
initial index -1 (selection needs a strictly positive total), so no
natural-number base index is the main base and every base receives the
equal other-bases share `S * (1 - pct/100) / (numBases - 1)`. -/
theorem modeB_all_zero_C10 (duties : List (List ℕ)) (numDays : ℕ)
    (slack pct : ℚ) (hz : ∀ r ∈ duties, r.sum = 0) :
    mainBaseIndex duties = -1 ∧
    (∀ i : ℕ, (i : ℤ) ≠ mainBaseIndex duties) ∧
    skewedAverages duties numDays slack pct =
      (List.range duties.length).map fun (_ : ℕ) =>
        sumAverages duties numDays slack * (1 - pct / 100) /
          ((duties.length : ℚ) - 1) := by
  have hz2 : ∀ s ∈ periodTotals duties, s = 0 := by
    intro s hs
    rw [periodTotals, List.mem_map] at hs
    obtain ⟨r, hr, rfl⟩ := hs
    exact hz r hr
  have hmain : mainBaseIndex duties = -1 := by
    rw [mainBaseIndex]
    exact mainBaseScan_zeros (periodTotals duties) hz2 0 (-1)
  have hlen : (periodTotals duties).length = duties.length := by
    rw [periodTotals, List.length_map]
  refine ⟨hmain, fun i => by rw [hmain]; omega, ?_⟩
  rw [skewedAverages, hmain, hlen]
  exact List.map_congr_left fun i _ => by rw [if_neg (by omega)]

/-- Witness for C10: two bases with all-zero duty matrices under slack 0
and main-base percentage 50. -/
theorem modeB_all_zero_C10_witness :
    mainBaseIndex [[0], [0]] = -1 ∧
    (∀ i : ℕ, (i : ℤ) ≠ mainBaseIndex [[0], [0]]) ∧
    skewedAverages [[0], [0]] 1 0 50 =
      (List.range ([[0], [0]] : List (List ℕ)).length).map fun (_ : ℕ) =>
        sumAverages [[0], [0]] 1 0 * (1 - 50 / 100) /
          ((([[0], [0]] : List (List ℕ)).length : ℚ) - 1) :=
  modeB_all_zero_C10 [[0], [0]] 1 0 50 (by decide)

/-! ### Batch loop lemmas -/

theorem runBatch_from (regs : List Bool) (m : ℕ) (h1 : m < regs.length)
    (hm : regs.getD m false = false) :
    ∀ (fuel k : ℕ), k ≤ m →
      (∀ i, k ≤ i → i < m → regs.getD i false = true) →
      runBatch regs fuel k =
        (List.range' k (min fuel (m - k))).map BatchEvent.processed ++
          List.replicate (fuel - min fuel (m - k))
            (BatchEvent.errorMissingRegistry m) := by
  intro fuel
  induction fuel with
  | zero =>
    intro k hk hpre
    simp [runBatch]
  | succ f ih =>
    intro k hk hpre
    rw [runBatch, if_pos (lt_of_le_of_lt hk h1)]
    by_cases hkm : k = m
    · have hkm2 : regs.getD k false = false := by rw [hkm]; exact hm
      rw [hkm2]
      have hrec := ih k hk (fun i hi1 hi2 => absurd hi1 (by omega))
      have hmin2 : min f (m - k) = 0 := by omega
      rw [hmin2] at hrec
      have hmin : min (f + 1) (m - k) = 0 := by omega
      rw [hmin]
      simp only [List.range', List.map_nil, List.nil_append,
        Nat.sub_zero] at hrec ⊢
      rw [List.replicate_succ]
      simp only [Bool.false_eq_true, if_false]
      rw [hrec, hkm]
    · have hklt : k < m := lt_of_le_of_ne hk hkm
      rw [hpre k le_rfl hklt]
      have hrec := ih (k + 1) hklt
        (fun i hi1 hi2 => hpre i (by omega) hi2)
      rw [if_pos rfl, hrec]
      have hmin : min (f + 1) (m - k) = min f (m - (k + 1)) + 1 := by omega
      have hsub : (f + 1) - (min f (m - (k + 1)) + 1) =
          f - min f (m - (k + 1)) := by omega
      rw [hmin, hsub, List.range'_succ]
      simp

/-- C9: when the base registry of instance `m` is missing (and all earlier
registries are present), the batch loop reports the missing-registry error
and never advances past instance `m`: however long the loop is observed,
the processed instances are exactly 0..m-1, followed only by repeated
error reports for instance `m`; in particular no instance after `m` is
ever processed, unlike the skip-and-continue handling of the other
missing-input errors. -/
theorem missing_registry_abort_C9 (regs : List Bool) (m : ℕ)
    (h1 : m < regs.length) (hm : regs.getD m false = false)
    (hpre : ∀ i, i < m → regs.getD i false = true) :
    (∀ fuel, runBatch regs fuel 0 =
      (List.range (min fuel m)).map BatchEvent.processed ++
        List.replicate (fuel - min fuel m)
          (BatchEvent.errorMissingRegistry m)) ∧
    (∀ fuel k, BatchEvent.processed k ∈ runBatch regs fuel 0 → k < m) := by
  have hbase : ∀ fuel, runBatch regs fuel 0 =
      (List.range (min fuel m)).map BatchEvent.processed ++
        List.replicate (fuel - min fuel m)
          (BatchEvent.errorMissingRegistry m) := by
    intro fuel
    have h := runBatch_from regs m h1 hm fuel 0 (Nat.zero_le m)
      (fun i _ hi2 => hpre i hi2)
    rw [h, List.range_eq_range']
    simp
  refine ⟨hbase, ?_⟩
  intro fuel k hk
  rw [hbase fuel] at hk
  rcases List.mem_append.mp hk with h | h
  · rw [List.mem_map] at h
    obtain ⟨x, hx, hx2⟩ := h
    injection hx2 with h3
    subst h3
    have := List.mem_range.mp hx
    omega
  · have := List.eq_of_mem_replicate h
    cases this

/-- Witness for C9: three instances whose middle registry is missing; five
observed iterations process only instance 0 and then repeat the error for
instance 1. -/
theorem missing_registry_abort_C9_witness :
    runBatch [true, false, true] 5 0 =
      (List.range (min 5 1)).map BatchEvent.processed ++
        List.replicate (5 - min 5 1) (BatchEvent.errorMissingRegistry 1) :=
  (missing_registry_abort_C9 [true, false, true] 1 (by decide) (by decide)
    (by decide)).1 5

end CrewAvail
